import Mathlib

/-!
Verification of the dynadojo experiment-evaluation engine.

The first part embeds `FixedError.system_run` and its inner `search`,
`model_run`, `run_helper` and `get_training_set` helpers
(src/src/dynadojo/challenges.py), the second part the `Task.evaluate`
sweep driver and its closed-loop training loop and shape assertions
(src/dynascale/abstractions.py).  Machine reals are modelled by `ℚ`,
trajectories and batches by lists, and external collaborators
(systems, models) by abstract functions.
-/

namespace Dynadojo

/-- Result of `search()`: a finite sample count, the `-1` sentinel
(target never reached within `n_max`), the `np.inf` sentinel
(stuck at a local minimum), or exhaustion of the embedding's fuel
(the Python loop is unbounded; `outOfFuel` marks an unfinished run). -/
inductive SearchResult where
  | found (n : ℕ)
  | neverReached
  | localMin
  | outOfFuel
deriving DecidableEq

/-- Outcome of the exponential phase: either a direct result, or a
bracket `[nLower, nUpper]` handed to the binary-search phase. -/
inductive ExpoOutcome where
  | result (r : SearchResult)
  | toBinary (nLower nUpper : ℕ)
deriving DecidableEq

/-- Loop state of the exponential phase (challenges.py lines 310-317).
`bestAnswer = none` plays the role of the initial `np.inf`. -/
structure ExpoState where
  nCurr : ℕ
  nPrevs : List ℕ
  errorPrev : Option ℚ
  increment : ℕ
  history : Finset (ℕ × ℕ)
  bestAnswer : Option ℕ

/-- The `best_answer` update (lines 330-331): a new best is recorded when
the current error is at most the target and `n_curr` beats the best so far
(`n_curr < np.inf` always holds). -/
def bestUpdate (target errorCurr : ℚ) (nCurr : ℕ) : Option ℕ → Option ℕ
  | none => if errorCurr ≤ target then some nCurr else none
  | some b => if errorCurr ≤ target ∧ nCurr < b then some nCurr else some b

/-- Increment growth (line 360): double (`math.ceil` of an integer product
is the product), floored at 1, capped at `n_max // 10`. -/
def incStep (nMax increment : ℕ) : ℕ :=
  min (max 1 (increment * 2)) (nMax / 10)

/-- One fuelled unfolding of the `while True` exponential-search loop of
`search()` (lines 318-372), branch for branch: the `n_max` check, the
cycle guard, the best-answer update, then the four-way decision on
history and error direction.  The windowed `model_run` error is the
abstract function `err` (single-`n` evaluations are memoized, so the
windowed error is a pure function of `n`). -/
def expoLoop (err : ℕ → ℚ) (target : ℚ) (nPrecision nMax : ℕ) :
    ℕ → ExpoState → ExpoOutcome
  | 0, _ => .result .outOfFuel
  | fuel + 1, s =>
    if nMax < s.nCurr then .result .neverReached
    else if (s.nCurr, s.increment) ∈ s.history then
      match s.bestAnswer with
      | some n => .result (.found n)
      | none => .result .localMin
    else
      let history := insert (s.nCurr, s.increment) s.history
      let errorCurr := err s.nCurr
      let best := bestUpdate target errorCurr s.nCurr s.bestAnswer
      match s.nPrevs with
      | top :: rest =>
        if s.errorPrev.getD 0 < errorCurr then
          match rest with
          | nPrevPrev :: _ =>
            if (s.nCurr : ℤ) - (nPrevPrev : ℤ) ≤ (max nPrecision 1 : ℤ) then
              .result .localMin
            else
              expoLoop err target nPrecision nMax fuel
                ⟨nPrevPrev, [], none, 1, history, best⟩
          | [] =>
            if top < nPrecision then .result (.found top)
            else
              expoLoop err target nPrecision nMax fuel
                ⟨max 1 (top / 2), [], none, 1, history, best⟩
        else
          if errorCurr < target then .toBinary top s.nCurr
          else
            expoLoop err target nPrecision nMax fuel
              ⟨s.nCurr + s.increment, s.nCurr :: top :: rest, some errorCurr,
                incStep nMax s.increment, history, best⟩
      | [] =>
        if target < errorCurr then
          expoLoop err target nPrecision nMax fuel
            ⟨s.nCurr + s.increment, [s.nCurr], some errorCurr,
              incStep nMax s.increment, history, best⟩
        else
          if s.nCurr < nPrecision + 1 then .result (.found s.nCurr)
          else
            expoLoop err target nPrecision nMax fuel
              ⟨max 1 (s.nCurr / 2), [], s.errorPrev, s.increment, history, best⟩

/-- The binary-search phase (lines 379-398): return the ceiling midpoint
once the bracket is within `max(n_precision, 1)`, otherwise narrow to the
left half when `error(n_lower) > target > error(mid)` and to the right
half otherwise.  (The code carries `error_lower` in a variable; it always
equals the memoized `model_run` value at the current lower endpoint, so
re-evaluating `err` is the same.) -/
def binarySearch (err : ℕ → ℚ) (target : ℚ) (nPrecision : ℕ)
    (nLower nUpper : ℕ) : ℕ :=
  if nUpper - nLower ≤ max nPrecision 1 then (nLower + nUpper + 1) / 2
  else
    if target < err nLower ∧ err ((nLower + nUpper) / 2) < target then
      binarySearch err target nPrecision nLower ((nLower + nUpper) / 2)
    else
      binarySearch err target nPrecision ((nLower + nUpper) / 2) nUpper
termination_by nUpper - nLower
decreasing_by
  all_goals
    have h1 : 1 ≤ max nPrecision 1 := le_max_right _ _
    omega

/-- The exponential phase run from the initial state
(`n_curr = n_start`, empty stack, increment 1, empty history,
`best_answer = np.inf`). -/
def expoOutcome (err : ℕ → ℚ) (target : ℚ)
    (nStart nPrecision nMax fuel : ℕ) : ExpoOutcome :=
  expoLoop err target nPrecision nMax fuel ⟨nStart, [], none, 1, ∅, none⟩

/-- `search()` (lines 295-398): exponential phase, then binary search on
the discovered bracket. -/
def search (err : ℕ → ℚ) (target : ℚ)
    (nStart nPrecision nMax fuel : ℕ) : SearchResult :=
  match expoOutcome err target nStart nPrecision nMax fuel with
  | .result r => r
  | .toBinary l u => .found (binarySearch err target nPrecision l u)

/-- One narrowing step of the binary-search loop: `none` when the loop
returns (bracket within precision), otherwise the narrowed bracket. -/
def binStep (err : ℕ → ℚ) (target : ℚ) (nPrecision : ℕ) :
    ℕ × ℕ → Option (ℕ × ℕ)
  | (l, u) =>
    if u - l ≤ max nPrecision 1 then none
    else
      if target < err l ∧ err ((l + u) / 2) < target then some (l, (l + u) / 2)
      else some ((l + u) / 2, u)

/-- Brackets reachable from an entry bracket by narrowing steps. -/
def BinReach (err : ℕ → ℚ) (target : ℚ) (nPrecision : ℕ) :
    ℕ × ℕ → ℕ × ℕ → Prop :=
  Relation.ReflTransGen fun s t => binStep err target nPrecision s = some t

/-- Insert into a sorted list of rationals, keeping it sorted. -/
def insertSorted (a : ℚ) : List ℚ → List ℚ
  | [] => [a]
  | b :: bs => if a ≤ b then a :: b :: bs else b :: insertSorted a bs

/-- Ascending insertion sort on rationals. -/
def sortQ : List ℚ → List ℚ
  | [] => []
  | a :: as => insertSorted a (sortQ as)

/-- `np.median` on a list of rationals: the middle of the sorted list for
odd length, the mean of the two middle elements for even length (and 0 on
the empty list, where numpy would produce NaN). -/
def medianQ (xs : List ℚ) : ℚ :=
  if xs.length % 2 = 1 then (sortQ xs).getD (xs.length / 2) 0
  else ((sortQ xs).getD (xs.length / 2 - 1) 0 + (sortQ xs).getD (xs.length / 2) 0) / 2

/-- Python `range(a, b)`: the integers of `[a, b)`. -/
def pyRange (a b : ℕ) : List ℕ := List.range' a (b - a)

/-- The inclusive integer range `[a, b]` (used to state the spec's words). -/
def rangeIncl (a b : ℕ) : List ℕ := List.range' a (b + 1 - a)

/-- `model_run(n, window)` (lines 284-292) at the level of the per-`n`
single evaluation `ev n = (error, cost)` (memoized, hence a pure function
of `n`): for `window > 0`, the median error and the median cost over
`range(max(1, n - window), min(n + window + 1, n_max))`; for `window = 0`
the single evaluation at `n`. -/
def modelRunVal (ev : ℕ → ℚ × ℚ) (nMax n window : ℕ) : ℚ × ℚ :=
  if 0 < window then
    (medianQ ((pyRange (max 1 (n - window)) (min (n + window + 1) nMax)).map
        fun k => (ev k).1),
      medianQ ((pyRange (max 1 (n - window)) (min (n + window + 1) nMax)).map
        fun k => (ev k).2))
  else ev n

/-- The windowed evaluation as the spec's sentence words it — medians over
the clamped inclusive range `[max(1, n - w), min(n + w, n_max)]` — for
comparison with the code's `modelRunVal`. -/
def modelRunValClaimed (ev : ℕ → ℚ × ℚ) (nMax n window : ℕ) : ℚ × ℚ :=
  if 0 < window then
    (medianQ ((rangeIncl (max 1 (n - window)) (min (n + window) nMax)).map
        fun k => (ev k).1),
      medianQ ((rangeIncl (max 1 (n - window)) (min (n + window) nMax)).map
        fun k => (ev k).2))
  else ev n

/-- Per-`system_run` state threaded through `run_helper`: the master
training-set pool, the memo, the appended result rows
`(n, error, ood_error, cost)`, and a count of models trained (one model is
constructed and fitted per un-memoized call). -/
structure RunState (α : Type) where
  pool : List α
  memo : List (ℕ × ℚ × ℚ)
  rows : List (ℕ × ℚ × Option ℚ × ℚ)
  trains : ℕ
deriving DecidableEq

/-- Modelled from the spec: `Challenge._append_result` is not under `src/`;
per the spec the result record is append-only, one row per sample-count
evaluation. -/
def appendResult (rows : List (ℕ × ℚ × Option ℚ × ℚ))
    (row : ℕ × ℚ × Option ℚ × ℚ) : List (ℕ × ℚ × Option ℚ × ℚ) :=
  rows ++ [row]

/-- `get_training_set(n)` (lines 235-247): for `n` at most the pool size,
the first `n` trajectories of the pool with the pool untouched; otherwise
append `n - pool_size` freshly generated trajectories and return the whole
pool.  Returns `(training set, updated pool)`.  `gen i` is the `i`-th
trajectory ever generated for this run (`_gen_trainset` is not under
`src/` and is modelled from the spec as a deterministic seeded stream). -/
def get_training_set {α : Type} (gen : ℕ → α) (pool : List α) (n : ℕ) :
    List α × List α :=
  if n ≤ pool.length then (pool.take n, pool)
  else
    (pool ++ (List.range (n - pool.length)).map fun i => gen (pool.length + i),
      pool ++ (List.range (n - pool.length)).map fun i => gen (pool.length + i))

/-- Outcome of one un-memoized evaluation on a training set:
in-distribution error, out-of-distribution error and total control cost
(model construction, `_fit_model`, prediction and scoring are external
collaborators; their composite result on a training set is abstracted). -/
structure EvalOut where
  error : ℚ
  oodError : ℚ
  cost : ℚ
deriving DecidableEq

/-- `run_helper(n)` (lines 259-283): a memo hit returns the cached pair and
leaves every piece of state untouched; otherwise train one model on the
training set of size `n`, append exactly one result row, and memoize
`(ood_error, total_cost)` when `test_ood` and `(error, total_cost)`
otherwise. -/
def run_helper {α : Type} (gen : ℕ → α) (evalModel : List α → EvalOut)
    (testOod : Bool) (s : RunState α) (n : ℕ) : (ℚ × ℚ) × RunState α :=
  match List.lookup n s.memo with
  | some v => (v, s)
  | none =>
    let out := evalModel (get_training_set gen s.pool n).1
    let v : ℚ × ℚ := if testOod then (out.oodError, out.cost) else (out.error, out.cost)
    (v, ⟨(get_training_set gen s.pool n).2, (n, v) :: s.memo,
      appendResult s.rows (n, out.error, if testOod then some out.oodError else none, out.cost),
      s.trains + 1⟩)

/-- Sweep configuration of `Task` (abstractions.py lines 103-129). -/
structure TaskConfig where
  N : List ℕ
  L : List ℕ
  E : List ℕ
  T : List ℕ
  C : List ℕ
  reps : ℕ

/-- `itertools.product(N, L, E, T, C)` in loop order. -/
def sweepCombos (cfg : TaskConfig) : List (ℕ × ℕ × ℕ × ℕ × ℕ) :=
  cfg.N.flatMap fun n => cfg.L.flatMap fun l => cfg.E.flatMap fun e =>
    cfg.T.flatMap fun t => cfg.C.map fun c => (n, l, e, t, c)

/-- The combinations actually evaluated: those with
`embed_dim < latent_dim` are skipped (lines 148-149). -/
def validCombos (cfg : TaskConfig) : List (ℕ × ℕ × ℕ × ℕ × ℕ) :=
  (sweepCombos cfg).filter fun p => decide (p.2.1 ≤ p.2.2.1)

/-- The assembled table: the per-combination rows and the single `id`
value left in the data dict after the loop (`data["id"] = next(self._id)`
assigns one scalar per repetition, each assignment overwriting the last;
with zero repetitions the key is never set). -/
structure EvalTable where
  rows : List ((ℕ × ℕ × ℕ × ℕ × ℕ) × ℚ × ℚ)
  idCol : Option ℕ
deriving DecidableEq

/-- `Task.evaluate` row and id assembly (lines 141-188): for every
repetition, append one `(combo, loss, cost)` row per valid combination
(`outcome i p` abstracts the trained model's loss and accumulated control
cost for combination `p` in repetition `i`), then overwrite the table's
`id` entry with the next counter value. -/
def taskEvaluate (cfg : TaskConfig)
    (outcome : ℕ → (ℕ × ℕ × ℕ × ℕ × ℕ) → ℚ × ℚ) : EvalTable :=
  ((List.range cfg.reps).foldl
    (fun acc i =>
      (⟨acc.1.rows ++ ((validCombos cfg).map fun p => (p, outcome i p)),
          some acc.2⟩,
        acc.2 + 1))
    (⟨[], none⟩, 0)).1

/-- Per-row id values of the table: pandas broadcasts the scalar `id`
dict entry to every row when the frame is built. -/
def rowIds (t : EvalTable) : List ℕ := t.rows.map fun _ => t.idCol.getD 0

/-- External collaborator operations used by the closed-loop trainer
(abstractions.py lines 157-173); a trajectory batch is a list of
trajectories, a trajectory a list of states. -/
structure LoopFns (St Md : Type) where
  makeData : List St → Option (List (List St)) → List (List St)
  act : Md → List (List St) → List (List St)
  calcCost : List (List St) → ℚ
  fit : Md → List (List St) → Md

/-- `x[:, 0]`: the first state (timestep 0) of every trajectory. -/
def firstStates {St : Type} [Inhabited St] (x : List (List St)) : List St :=
  x.map fun traj => traj.headI

/-- The last state (final timestep) of every trajectory. -/
def lastStates {St : Type} [Inhabited St] (x : List (List St)) : List St :=
  x.map fun traj => traj.getLastD default

/-- The closed-loop training loop (lines 161-173): horizon 0 trains on
data generated from the given initial conditions without control; every
later horizon asks the model for a control on the current batch, accrues
its cost, generates the next batch from `x[:, 0]` — the first state of
each trajectory of the previous batch — under that control, and re-fits.
`closedLoop f m0 init j` is `(x, model, total_control_cost)` after
horizon `j`. -/
def closedLoop {St Md : Type} [Inhabited St] (f : LoopFns St Md) (m0 : Md)
    (initConds : List St) : ℕ → List (List St) × Md × ℚ
  | 0 =>
    (f.makeData initConds none,
      f.fit m0 (f.makeData initConds none), 0)
  | j + 1 =>
    let prev := closedLoop f m0 initConds j
    (f.makeData (firstStates prev.1) (some (f.act prev.2.1 prev.1)),
      f.fit prev.2.1 (f.makeData (firstStates prev.1) (some (f.act prev.2.1 prev.1))),
      prev.2.2 + f.calcCost (f.act prev.2.1 prev.1))

/-- The loop as the spec's sentence words it — the next batch generated
from the LAST state of the previous batch — for comparison with
`closedLoop`. -/
def closedLoopSpecLast {St Md : Type} [Inhabited St] (f : LoopFns St Md)
    (m0 : Md) (initConds : List St) : ℕ → List (List St) × Md × ℚ
  | 0 =>
    (f.makeData initConds none,
      f.fit m0 (f.makeData initConds none), 0)
  | j + 1 =>
    let prev := closedLoopSpecLast f m0 initConds j
    (f.makeData (lastStates prev.1) (some (f.act prev.2.1 prev.1)),
      f.fit prev.2.1 (f.makeData (lastStates prev.1) (some (f.act prev.2.1 prev.1))),
      prev.2.2 + f.calcCost (f.act prev.2.1 prev.1))

/-- Shape of a trajectory-batch array `(n, timesteps, embed_dim)`. -/
structure Shape3 where
  n : ℕ
  t : ℕ
  d : ℕ
deriving DecidableEq

/-- The `Model.predict` wrapper (lines 31-35): asserts the prediction's
shape is `(n, self._timesteps, self._embed_dim)` where `self._timesteps`
is the model's TRAINING timesteps; `rawShape` abstracts the shape the
subclass `_predict` returns. -/
def predictCheck (modelTimesteps embedDim nInit : ℕ) (rawShape : Shape3) :
    Option Shape3 :=
  if rawShape = ⟨nInit, modelTimesteps, embedDim⟩ then some rawShape else none

/-- The `Challenge.calc_loss` wrapper (lines 88-90): asserts its two
arguments have identical shapes. -/
def calcLossCheck (x y : Shape3) : Option Unit :=
  if x = y then some () else none

/-- The prediction-scoring step of `Task.evaluate` (lines 176-179) at
shape level: the held-out test set has shape
`(test_examples, test_timesteps, embed_dim)` (enforced by the `make_data`
wrapper, line 81), the model predicts with its training `timesteps`, and
`calc_loss` compares the two shapes.  `some ()` iff no assertion fails. -/
def scorePipeline (embedDim timesteps testExamples testTimesteps : ℕ)
    (rawShape : Shape3) : Option Unit := do
  let pred ← predictCheck timesteps embedDim testExamples rawShape
  calcLossCheck pred ⟨testExamples, testTimesteps, embedDim⟩

/-- All `(n_curr, increment)` pairs the exponential phase can record in
its cycle-guard history: `n_curr` is checked against `n_max` before
recording, and the increment never exceeds `max 1 (n_max / 10)`. -/
def expoPairs (nMax : ℕ) : Finset (ℕ × ℕ) :=
  Finset.range (nMax + 1) ×ˢ Finset.range (max 1 (nMax / 10) + 1)

/-! ## Concrete instances used by counterexamples and witnesses -/

/-- A unimodal error curve staying strictly above the target 1:
decreasing down to 2 at `n = 4`, then increasing. -/
def errC1 (n : ℕ) : ℚ := ((if n ≤ 4 then 6 - (n : ℤ) else (n : ℤ) - 2 : ℤ) : ℚ)

/-- A strictly decreasing error curve staying strictly above the target 1. -/
def errC1w (n : ℕ) : ℚ := ((20 - (n : ℤ) : ℤ) : ℚ)

/-- A unimodal error curve staying strictly above the target 1:
minimum 2 at `n = 3`. -/
def errC2 (n : ℕ) : ℚ := ((if n < 3 then 5 - (n : ℤ) else (n : ℤ) - 1 : ℤ) : ℚ)

/-- An error curve that hits the target 2 exactly at `n = 2`. -/
def errC3 (n : ℕ) : ℚ := ((if n ≤ 1 then 5 else if n = 2 then 2 else 1 : ℤ) : ℚ)

/-- A strictly decreasing error curve never equal to the odd target 7. -/
def errC3w (n : ℕ) : ℚ := ((20 - 2 * (n : ℤ) : ℤ) : ℚ)

/-- Per-`n` single evaluations with a different error and cost at every
`n`. -/
def evC4 (k : ℕ) : ℚ × ℚ := (((k : ℤ) : ℚ), ((k : ℤ) : ℚ))

/-- Loop collaborators on which the first and the last trajectory state
differ: each batch is one trajectory `[a, a + 1]` built from the first
initial condition `a`. -/
def fC8 : LoopFns ℕ Unit where
  makeData ic _ := [[ic.headI, ic.headI + 1]]
  act _ _ := []
  calcCost _ := 0
  fit _ _ := ()

/-- A sweep with a single valid combination and two repetitions. -/
def cfgC9 : TaskConfig := ⟨[1], [1], [1], [1], [1], 2⟩

/-- A fresh `system_run` state: the initial pool of 10 trajectories
(line 234), empty memo, no rows, no models trained yet. -/
def sC5 : RunState ℕ := ⟨List.range 10, [], [], 0⟩

/-- An evaluation collaborator whose error is the training-set size. -/
def evalC5 (ts : List ℕ) : EvalOut := ⟨(ts.length : ℚ), 0, 1⟩

/-! ## Helper lemmas -/

/-- A memo hit returns the cached value and leaves the state untouched. -/
theorem run_helper_hit {α : Type} (gen : ℕ → α) (evalModel : List α → EvalOut)
    (testOod : Bool) (s : RunState α) (n : ℕ) (v : ℚ × ℚ)
    (h : List.lookup n s.memo = some v) :
    run_helper gen evalModel testOod s n = (v, s) := by
  simp [run_helper, h]

/-- The table `taskEvaluate` folds up, in closed form. -/
theorem taskEvaluate_fold (cfg : TaskConfig)
    (outcome : ℕ → (ℕ × ℕ × ℕ × ℕ × ℕ) → ℚ × ℚ) (n : ℕ) :
    (List.range n).foldl
      (fun acc i =>
        (⟨acc.1.rows ++ ((validCombos cfg).map fun p => (p, outcome i p)),
            some acc.2⟩,
          acc.2 + 1))
      ((⟨[], none⟩ : EvalTable), 0)
      = (⟨(List.range n).flatMap fun i =>
            (validCombos cfg).map fun p => (p, outcome i p),
          if n = 0 then none else some (n - 1)⟩, n) := by
  induction n with
  | zero => simp
  | succ k ih =>
    rw [List.range_succ, List.foldl_append, ih]
    simp [List.range_succ, List.flatMap_append]

/-- Closed form of `taskEvaluate`. -/
theorem taskEvaluate_eq (cfg : TaskConfig)
    (outcome : ℕ → (ℕ × ℕ × ℕ × ℕ × ℕ) → ℚ × ℚ) :
    taskEvaluate cfg outcome =
      ⟨(List.range cfg.reps).flatMap fun i =>
          (validCombos cfg).map fun p => (p, outcome i p),
        if cfg.reps = 0 then none else some (cfg.reps - 1)⟩ := by
  unfold taskEvaluate
  rw [taskEvaluate_fold]

/-- Every exponential-phase iteration that neither returns nor breaks
records a fresh pair in the bounded cycle-guard history, so enough fuel
rules out fuel exhaustion. -/
theorem expoLoop_fuel (err : ℕ → ℚ) (target : ℚ) (nPrecision nMax : ℕ) :
    ∀ fuel (s : ExpoState), s.increment ≤ max 1 (nMax / 10) →
      s.history ⊆ expoPairs nMax →
      (expoPairs nMax).card - s.history.card + 1 ≤ fuel →
      expoLoop err target nPrecision nMax fuel s ≠ .result .outOfFuel := by
  intro fuel
  induction fuel with
  | zero =>
    intro s _ hsub hcard
    have := Finset.card_le_card hsub
    omega
  | succ f ih =>
    intro s hinc hsub hcard
    obtain ⟨nc, prevs, ep, inc, hist, best⟩ := s
    dsimp only at hinc hsub hcard
    by_cases h1 : nMax < nc
    · simp only [expoLoop, if_pos h1]
      simp
    · by_cases h2 : (nc, inc) ∈ hist
      · simp only [expoLoop, if_neg h1, if_pos h2]
        cases best <;> simp
      · have hmem : (nc, inc) ∈ expoPairs nMax := by
          simp only [expoPairs, Finset.mem_product, Finset.mem_range]
          omega
        have hsub' : insert (nc, inc) hist ⊆ expoPairs nMax :=
          Finset.insert_subset_iff.mpr ⟨hmem, hsub⟩
        have hci : (insert (nc, inc) hist).card = hist.card + 1 :=
          Finset.card_insert_of_not_mem h2
        have hle : hist.card + 1 ≤ (expoPairs nMax).card := by
          rw [← hci]
          exact Finset.card_le_card hsub'
        have hcard' : (expoPairs nMax).card - (insert (nc, inc) hist).card + 1
            ≤ f := by omega
        have hincPush : incStep nMax inc ≤ max 1 (nMax / 10) :=
          le_trans (min_le_right _ _) (le_max_right _ _)
        have hinc1 : (1 : ℕ) ≤ max 1 (nMax / 10) := le_max_left _ _
        cases prevs with
        | nil =>
          simp only [expoLoop, if_neg h1, if_neg h2]
          by_cases h3 : target < err nc
          · rw [if_pos h3]
            exact ih _ hincPush hsub' hcard'
          · rw [if_neg h3]
            by_cases h4 : nc < nPrecision + 1
            · rw [if_pos h4]
              simp
            · rw [if_neg h4]
              exact ih _ hinc hsub' hcard'
        | cons top rest =>
          simp only [expoLoop, if_neg h1, if_neg h2]
          by_cases h3 : (ep.getD 0) < err nc
          · rw [if_pos h3]
            cases rest with
            | nil =>
              dsimp only
              by_cases h4 : top < nPrecision
              · rw [if_pos h4]
                simp
              · rw [if_neg h4]
                exact ih _ hinc1 hsub' hcard'
            | cons npp rest2 =>
              dsimp only
              by_cases h4 : (nc : ℤ) - (npp : ℤ) ≤ (max nPrecision 1 : ℤ)
              · rw [if_pos h4]
                simp
              · rw [if_neg h4]
                exact ih _ hinc1 hsub' hcard'
          · rw [if_neg h3]
            by_cases h4 : err nc < target
            · rw [if_pos h4]
              simp
            · rw [if_neg h4]
              exact ih _ hincPush hsub' hcard'

/-- On a strictly decreasing, everywhere-above-target error curve, the
exponential phase only ever pushes forward and must run past `n_max`. -/
theorem expoLoop_strictAnti (err : ℕ → ℚ) (target : ℚ) (nPrecision nMax : ℕ)
    (hdec : ∀ n, n ≤ nMax → ∀ m, m < n → err n < err m)
    (habove : ∀ n, n ≤ nMax → target < err n)
    (hmax : 10 ≤ nMax) :
    ∀ fuel (s : ExpoState), (∀ x ∈ s.nPrevs, x < s.nCurr) →
      (∀ top rest, s.nPrevs = top :: rest →
        top ≤ nMax ∧ s.errorPrev = some (err top)) →
      (∀ p ∈ s.history, p.1 < s.nCurr) →
      1 ≤ s.increment →
      nMax + 2 ≤ s.nCurr + fuel → 1 ≤ fuel →
      expoLoop err target nPrecision nMax fuel s = .result .neverReached := by
  intro fuel
  induction fuel with
  | zero =>
    intro s _ _ _ _ _ hf1
    omega
  | succ f ih =>
    intro s hprevs hprev hhist hinc1 hf hf1
    obtain ⟨nc, prevs, ep, inc, hist, best⟩ := s
    dsimp only at hprevs hprev hhist hinc1 hf
    by_cases h1 : nMax < nc
    · simp [expoLoop, h1]
    · have hnc : nc ≤ nMax := by omega
      have h2 : (nc, inc) ∉ hist := by
        intro hmem
        have := hhist (nc, inc) hmem
        dsimp only at this
        omega
      have hincS : 1 ≤ incStep nMax inc := by
        simp only [incStep]
        omega
      cases prevs with
      | nil =>
        simp only [expoLoop, if_neg h1, if_neg h2]
        rw [if_pos (habove nc hnc)]
        refine ih _ ?_ ?_ ?_ hincS (by dsimp only; omega) (by omega)
        · intro x hx
          dsimp only at hx ⊢
          rcases List.mem_cons.mp hx with rfl | hx2
          · omega
          · simp at hx2
        · intro t r h
          dsimp only at h ⊢
          injection h with h1' h2'
          subst h1'
          exact ⟨hnc, rfl⟩
        · intro p hp2
          dsimp only at hp2 ⊢
          rcases Finset.mem_insert.mp hp2 with rfl | hp3
          · dsimp only
            omega
          · have := hhist p hp3
            omega
      | cons top rest =>
        have hp := hprev top rest rfl
        have htop : top < nc := hprevs top (by simp)
        have hlt : err nc < err top := hdec nc hnc top htop
        simp only [expoLoop, if_neg h1, if_neg h2]
        rw [hp.2]
        simp only [Option.getD_some]
        rw [if_neg (lt_asymm hlt), if_neg (lt_asymm (habove nc hnc))]
        refine ih _ ?_ ?_ ?_ hincS (by dsimp only; omega) (by omega)
        · intro x hx
          dsimp only at hx ⊢
          rcases List.mem_cons.mp hx with rfl | hx2
          · omega
          · have := hprevs x hx2
            omega
        · intro t r h
          dsimp only at h ⊢
          injection h with h1' h2'
          subst h1'
          exact ⟨hnc, rfl⟩
        · intro p hp2
          dsimp only at hp2 ⊢
          rcases Finset.mem_insert.mp hp2 with rfl | hp3
          · dsimp only
            omega
          · have := hhist p hp3
            omega

/-- On an error curve strictly above the target at every `n ≤ n_max`,
with `n_precision ≤ 1` and every probed `n` at least 1, the exponential
phase can only end in the `-1` or `np.inf` sentinels (or run out of
fuel in the embedding). -/
theorem expoLoop_above (err : ℕ → ℚ) (target : ℚ) (nPrecision nMax : ℕ)
    (habove : ∀ n, n ≤ nMax → target < err n)
    (hprec : nPrecision ≤ 1) :
    ∀ fuel (s : ExpoState), 1 ≤ s.nCurr → (∀ x ∈ s.nPrevs, 1 ≤ x) →
      s.bestAnswer = none →
      expoLoop err target nPrecision nMax fuel s = .result .neverReached ∨
      expoLoop err target nPrecision nMax fuel s = .result .localMin ∨
      expoLoop err target nPrecision nMax fuel s = .result .outOfFuel := by
  intro fuel
  induction fuel with
  | zero =>
    intro s _ _ _
    right; right; rfl
  | succ f ih =>
    intro s h1c hprevs hbest
    obtain ⟨nc, prevs, ep, inc, hist, best⟩ := s
    dsimp only at h1c hprevs hbest
    subst hbest
    by_cases h1 : nMax < nc
    · left
      simp [expoLoop, h1]
    · have hnc : nc ≤ nMax := by omega
      have habn : target < err nc := habove nc hnc
      have hbu : bestUpdate target (err nc) nc none = none := by
        simp only [bestUpdate]
        rw [if_neg (not_le_of_lt habn)]
      by_cases h2 : (nc, inc) ∈ hist
      · right; left
        simp [expoLoop, if_neg h1, if_pos h2]
      · cases prevs with
        | nil =>
          simp only [expoLoop, if_neg h1, if_neg h2]
          rw [if_pos habn, hbu]
          exact ih _ (by dsimp only; omega)
            (by intro x hx; rcases List.mem_cons.mp hx with rfl | hx2
                · omega
                · simp at hx2) rfl
        | cons top rest =>
          have htop : 1 ≤ top := hprevs top (by simp)
          simp only [expoLoop, if_neg h1, if_neg h2]
          rw [hbu]
          by_cases h3 : ep.getD 0 < err nc
          · rw [if_pos h3]
            cases rest with
            | nil =>
              dsimp only
              have h4 : ¬ top < nPrecision := by omega
              rw [if_neg h4]
              exact ih _ (by dsimp only; omega) (by intro x hx; simp at hx) rfl
            | cons npp rest2 =>
              dsimp only
              have hnpp : 1 ≤ npp := hprevs npp (by simp)
              by_cases h4 : (nc : ℤ) - (npp : ℤ) ≤ (max nPrecision 1 : ℤ)
              · rw [if_pos h4]
                right; left; rfl
              · rw [if_neg h4]
                exact ih _ (by dsimp only; omega)
                  (by intro x hx; simp at hx) rfl
          · rw [if_neg h3, if_neg (lt_asymm habn)]
            exact ih _ (by dsimp only; omega)
              (by intro x hx
                  rcases List.mem_cons.mp hx with rfl | hx2
                  · omega
                  · exact hprevs x hx2) rfl

/-- Entering the binary phase, the lower bracket end was pushed with
error at least the target, and the upper end broke the loop with error
strictly below it. -/
theorem expoLoop_toBinary_mem (err : ℕ → ℚ) (target : ℚ)
    (nPrecision nMax : ℕ) :
    ∀ fuel (s : ExpoState), (∀ x ∈ s.nPrevs, target ≤ err x) →
      ∀ l u, expoLoop err target nPrecision nMax fuel s = .toBinary l u →
        target ≤ err l ∧ err u < target := by
  intro fuel
  induction fuel with
  | zero =>
    intro s _ l u h
    simp [expoLoop] at h
  | succ f ih =>
    intro s hprevs l u h
    obtain ⟨nc, prevs, ep, inc, hist, best⟩ := s
    dsimp only at hprevs
    by_cases h1 : nMax < nc
    · simp [expoLoop, h1] at h
    · by_cases h2 : (nc, inc) ∈ hist
      · simp only [expoLoop, if_neg h1, if_pos h2] at h
        cases best <;> simp at h
      · cases prevs with
        | nil =>
          simp only [expoLoop, if_neg h1, if_neg h2] at h
          by_cases h3 : target < err nc
          · rw [if_pos h3] at h
            refine ih _ ?_ l u h
            intro x hx
            rcases List.mem_cons.mp hx with rfl | hx2
            · exact le_of_lt h3
            · simp at hx2
          · rw [if_neg h3] at h
            by_cases h4 : nc < nPrecision + 1
            · rw [if_pos h4] at h
              simp at h
            · rw [if_neg h4] at h
              exact ih _ (by intro x hx; simp at hx) l u h
        | cons top rest =>
          simp only [expoLoop, if_neg h1, if_neg h2] at h
          by_cases h3 : ep.getD 0 < err nc
          · rw [if_pos h3] at h
            cases rest with
            | nil =>
              dsimp only at h
              by_cases h4 : top < nPrecision
              · rw [if_pos h4] at h
                simp at h
              · rw [if_neg h4] at h
                exact ih _ (by intro x hx; simp at hx) l u h
            | cons npp rest2 =>
              dsimp only at h
              by_cases h4 : (nc : ℤ) - (npp : ℤ) ≤ (max nPrecision 1 : ℤ)
              · rw [if_pos h4] at h
                simp at h
              · rw [if_neg h4] at h
                exact ih _ (by intro x hx; simp at hx) l u h
          · rw [if_neg h3] at h
            by_cases h4 : err nc < target
            · rw [if_pos h4] at h
              injection h with hl hu
              subst hl
              subst hu
              exact ⟨hprevs _ (by simp), h4⟩
            · rw [if_neg h4] at h
              refine ih _ ?_ l u h
              intro x hx
              rcases List.mem_cons.mp hx with rfl | hx2
              · exact not_lt.mp h4
              · exact hprevs x hx2

/-- On a run where no probed error ever equals the target exactly, the
binary-search narrowing preserves the strict bracket invariant. -/
theorem binReach_invariant (err : ℕ → ℚ) (target : ℚ) (nPrecision : ℕ)
    (hne : ∀ n, err n ≠ target) (l u : ℕ)
    (hl : target < err l) (hu : err u < target) :
    ∀ p q, BinReach err target nPrecision (l, u) (p, q) →
      target < err p ∧ err q < target := by
  have main : ∀ z, BinReach err target nPrecision (l, u) z →
      target < err z.1 ∧ err z.2 < target := by
    intro z hz
    induction hz with
    | refl => exact ⟨hl, hu⟩
    | tail hab hstep ih =>
      rename_i b c
      obtain ⟨p1, q1⟩ := b
      simp only [binStep] at hstep
      by_cases hg : q1 - p1 ≤ max nPrecision 1
      · rw [if_pos hg] at hstep
        simp at hstep
      · rw [if_neg hg] at hstep
        by_cases hc : target < err p1 ∧ err ((p1 + q1) / 2) < target
        · rw [if_pos hc] at hstep
          injection hstep with hc2
          subst hc2
          exact ⟨ih.1, hc.2⟩
        · rw [if_neg hc] at hstep
          injection hstep with hc2
          subst hc2
          have hmid : target ≤ err ((p1 + q1) / 2) := by
            by_contra hcon
            exact hc ⟨ih.1, not_le.mp hcon⟩
          exact ⟨lt_of_le_of_ne hmid (Ne.symm (hne _)), ih.2⟩
  intro p q hpq
  exact main (p, q) hpq

/-- The binary search always returns the ceiling midpoint of a reachable
bracket that is within the precision bound. -/
theorem binarySearch_reaches (err : ℕ → ℚ) (target : ℚ) (nPrecision : ℕ) :
    ∀ d l u, u - l ≤ d →
      ∃ p q, BinReach err target nPrecision (l, u) (p, q) ∧
        q - p ≤ max nPrecision 1 ∧
        binarySearch err target nPrecision l u = (p + q + 1) / 2 := by
  intro d
  induction d with
  | zero =>
    intro l u hd
    have hm : 1 ≤ max nPrecision 1 := le_max_right _ _
    have h : u - l ≤ max nPrecision 1 := by omega
    refine ⟨l, u, Relation.ReflTransGen.refl, h, ?_⟩
    unfold binarySearch
    rw [if_pos h]
  | succ k ih =>
    intro l u hd
    by_cases h : u - l ≤ max nPrecision 1
    · refine ⟨l, u, Relation.ReflTransGen.refl, h, ?_⟩
      unfold binarySearch
      rw [if_pos h]
    · have hm : 1 ≤ max nPrecision 1 := le_max_right _ _
      by_cases hc : target < err l ∧ err ((l + u) / 2) < target
      · obtain ⟨p, q, hr, hq, hb⟩ := ih l ((l + u) / 2) (by omega)
        refine ⟨p, q, Relation.ReflTransGen.head ?_ hr, hq, ?_⟩
        · show binStep err target nPrecision (l, u) = some (l, (l + u) / 2)
          simp only [binStep]
          rw [if_neg h, if_pos hc]
        · unfold binarySearch
          rw [if_neg h, if_pos hc]
          exact hb
      · obtain ⟨p, q, hr, hq, hb⟩ := ih ((l + u) / 2) u (by omega)
        refine ⟨p, q, Relation.ReflTransGen.head ?_ hr, hq, ?_⟩
        · show binStep err target nPrecision (l, u) = some ((l + u) / 2, u)
          simp only [binStep]
          rw [if_neg h, if_neg hc]
        · unfold binarySearch
          rw [if_neg h, if_neg hc]
          exact hb

/-- The strictly decreasing witness error curve never equals the odd
target 7. -/
theorem errC3w_ne (n : ℕ) : errC3w n ≠ (7 : ℚ) := by
  unfold errC3w
  intro h
  have h2 : (20 - 2 * (n : ℤ)) = 7 := by exact_mod_cast h
  omega

/-- The count of elements equal to an absent element is zero. -/
theorem countP_eq_zero_of_not_mem {β : Type} [DecidableEq β] {l : List β}
    {a : β} (ha : a ∉ l) : l.countP (fun q => decide (q = a)) = 0 := by
  rw [List.countP_eq_length_filter, List.filter_eq_nil_iff.mpr]
  · rfl
  · intro x hx
    simp only [decide_eq_true_eq]
    rintro rfl
    exact ha hx

/-- In a duplicate-free list, a member is counted exactly once. -/
theorem countP_eq_one_of_nodup_mem {β : Type} [DecidableEq β] {l : List β}
    {a : β} (hd : l.Nodup) (ha : a ∈ l) :
    l.countP (fun q => decide (q = a)) = 1 := by
  induction l with
  | nil => simp at ha
  | cons b bs ih =>
    rw [List.countP_cons]
    rcases List.mem_cons.mp ha with h | h
    · subst h
      rw [countP_eq_zero_of_not_mem (List.nodup_cons.mp hd).1]
      simp
    · have hne : ¬ (b = a) := by
        rintro rfl
        exact (List.nodup_cons.mp hd).1 h
      rw [ih (List.nodup_cons.mp hd).2 h]
      simp [hne]

/-- Combination keys of the assembled rows: each repetition contributes
each valid combination once. -/
theorem taskEvaluate_count (cfg : TaskConfig)
    (outcome : ℕ → (ℕ × ℕ × ℕ × ℕ × ℕ) → ℚ × ℚ) (p : ℕ × ℕ × ℕ × ℕ × ℕ)
    (n : ℕ) :
    (((List.range n).flatMap fun i =>
        (validCombos cfg).map fun q => (q, outcome i q)).map
          Prod.fst).countP (fun q => decide (q = p))
      = n * (validCombos cfg).countP (fun q => decide (q = p)) := by
  induction n with
  | zero => simp
  | succ k ih =>
    rw [List.range_succ, List.flatMap_append, List.map_append,
      List.countP_append, ih]
    simp [List.map_map, Function.comp_def]
    ring

/-- Characterization of the shape-assertion pipeline. -/
theorem scorePipeline_eq (e t ex tt : ℕ) (r : Shape3) :
    scorePipeline e t ex tt r
      = if r = ⟨ex, t, e⟩ ∧ t = tt then some () else none := by
  unfold scorePipeline predictCheck calcLossCheck
  by_cases h1 : r = (⟨ex, t, e⟩ : Shape3)
  · subst h1
    by_cases h2 : t = tt
    · subst h2; simp
    · simp [Shape3.mk.injEq, h2]
  · simp [h1]

/-! ## Claims -/

/-- C4 (counterexample): the spec's inclusive clamp `min(n+w, n_max)`
disagrees with the code's `range(..., min(n+w+1, n_max))`, which excludes
`n_max` itself: at `n_max = 5`, `n = 5`, `w = 1` the code takes the
median over `{4}` while the claim takes it over `{4, 5}`. -/
theorem model_run_window_clamp_mismatch :
    modelRunVal evC4 5 5 1 ≠ modelRunValClaimed evC4 5 5 1 := by
  have h1 : modelRunVal evC4 5 5 1 = (((4 : ℤ) : ℚ), ((4 : ℤ) : ℚ)) := by decide
  have hmap : (rangeIncl (max 1 (5 - 1)) (min (5 + 1) 5)).map
      (fun k => (evC4 k).1) = [((4 : ℤ) : ℚ), ((5 : ℤ) : ℚ)] := by decide
  have hmap2 : (rangeIncl (max 1 (5 - 1)) (min (5 + 1) 5)).map
      (fun k => (evC4 k).2) = [((4 : ℤ) : ℚ), ((5 : ℤ) : ℚ)] := by decide
  have hsort : sortQ [((4 : ℤ) : ℚ), ((5 : ℤ) : ℚ)]
      = [((4 : ℤ) : ℚ), ((5 : ℤ) : ℚ)] := by decide
  have h2 : modelRunValClaimed evC4 5 5 1
      = ((((4 : ℤ) : ℚ) + ((5 : ℤ) : ℚ)) / 2,
          (((4 : ℤ) : ℚ) + ((5 : ℤ) : ℚ)) / 2) := by
    simp only [modelRunValClaimed, if_pos (by norm_num : (0 : ℕ) < 1), hmap,
      hmap2, medianQ, hsort]
    norm_num
  rw [h1, h2]
  intro h
  have h3 : ((4 : ℤ) : ℚ) = (((4 : ℤ) : ℚ) + ((5 : ℤ) : ℚ)) / 2 :=
    congrArg Prod.fst h
  norm_num at h3

/-- C4 (amended): for `window = w > 0`, `model_run` returns the median
error and the median cost over the clamped inclusive range
`[max(1, n - w), min(n + w, n_max - 1)]` (the code's Python `range`
excludes `n_max`); for `w = 0` it returns exactly the single evaluation
at `n`. -/
theorem model_run_window_median (ev : ℕ → ℚ × ℚ) (nMax n window : ℕ) :
    (0 < window →
      modelRunVal ev nMax n window =
        (medianQ ((rangeIncl (max 1 (n - window))
            (min (n + window) (nMax - 1))).map fun k => (ev k).1),
          medianQ ((rangeIncl (max 1 (n - window))
            (min (n + window) (nMax - 1))).map fun k => (ev k).2))) ∧
    (window = 0 → modelRunVal ev nMax n window = ev n) := by
  constructor
  · intro hw
    have harg : min (n + window + 1) nMax - max 1 (n - window)
        = min (n + window) (nMax - 1) + 1 - max 1 (n - window) := by omega
    simp only [modelRunVal, pyRange, rangeIncl, if_pos hw, harg]
  · intro hw
    subst hw
    simp [modelRunVal]

/-- C4 (witness): a concrete windowed evaluation through the amended
theorem. -/
theorem model_run_window_median_witness :
    modelRunVal evC4 5 5 1
      = (medianQ ((rangeIncl (max 1 (5 - 1)) (min (5 + 1) (5 - 1))).map
            fun k => (evC4 k).1),
          medianQ ((rangeIncl (max 1 (5 - 1)) (min (5 + 1) (5 - 1))).map
            fun k => (evC4 k).2)) :=
  (model_run_window_median evC4 5 5 1).1 (by decide)

/-- C5: within one `system_run`, a second `model_run(n, 0)`-level call to
`run_helper` with the same `n` returns exactly the same `(error, cost)`
pair, leaves the state untouched (in particular trains no new model), and
the result table holds exactly one row for that `n`. -/
theorem run_helper_memoization {α : Type} (gen : ℕ → α)
    (evalModel : List α → EvalOut) (testOod : Bool) (s : RunState α) (n : ℕ)
    (hmemo : List.lookup n s.memo = none)
    (hrows : ∀ r ∈ s.rows, r.1 ≠ n) :
    (run_helper gen evalModel testOod
        (run_helper gen evalModel testOod s n).2 n).1
      = (run_helper gen evalModel testOod s n).1 ∧
    (run_helper gen evalModel testOod
        (run_helper gen evalModel testOod s n).2 n).2
      = (run_helper gen evalModel testOod s n).2 ∧
    (run_helper gen evalModel testOod s n).2.trains = s.trains + 1 ∧
    ((run_helper gen evalModel testOod s n).2.rows.filter
        fun r => r.1 == n).length = 1 := by
  have hmiss : run_helper gen evalModel testOod s n =
      (if testOod
        then ((evalModel (get_training_set gen s.pool n).1).oodError,
          (evalModel (get_training_set gen s.pool n).1).cost)
        else ((evalModel (get_training_set gen s.pool n).1).error,
          (evalModel (get_training_set gen s.pool n).1).cost),
        ⟨(get_training_set gen s.pool n).2,
          (n, if testOod
            then ((evalModel (get_training_set gen s.pool n).1).oodError,
              (evalModel (get_training_set gen s.pool n).1).cost)
            else ((evalModel (get_training_set gen s.pool n).1).error,
              (evalModel (get_training_set gen s.pool n).1).cost)) :: s.memo,
          appendResult s.rows (n, (evalModel (get_training_set gen s.pool n).1).error,
            if testOod then some (evalModel (get_training_set gen s.pool n).1).oodError
            else none,
            (evalModel (get_training_set gen s.pool n).1).cost),
          s.trains + 1⟩) := by
    simp only [run_helper, hmemo]
  have hrownil : s.rows.filter (fun r => r.1 == n) = [] := by
    rw [List.filter_eq_nil_iff]
    intro r hr
    simpa using hrows r hr
  rw [hmiss]
  refine ⟨?_, ?_, rfl, ?_⟩
  · rw [run_helper_hit]
    simp [List.lookup]
  · rw [run_helper_hit]
    simp [List.lookup]
  · simp [appendResult, List.filter_append, hrownil]

/-- C5 (witness): the memoization property at a concrete fresh state. -/
theorem run_helper_memoization_witness :
    (run_helper (fun i => i) evalC5 false
        (run_helper (fun i => i) evalC5 false sC5 3).2 3).1
      = (run_helper (fun i => i) evalC5 false sC5 3).1 ∧
    (run_helper (fun i => i) evalC5 false
        (run_helper (fun i => i) evalC5 false sC5 3).2 3).2
      = (run_helper (fun i => i) evalC5 false sC5 3).2 ∧
    (run_helper (fun i => i) evalC5 false sC5 3).2.trains = sC5.trains + 1 ∧
    ((run_helper (fun i => i) evalC5 false sC5 3).2.rows.filter
        fun r => r.1 == 3).length = 1 :=
  run_helper_memoization (fun i => i) evalC5 false sC5 3 (by decide)
    (by intro r hr; simp [sC5] at hr)

/-- C6: the trajectory pool only grows.  A request of `n` at most the
pool size returns the first `n` trajectories with the pool unchanged; a
request of `n` beyond the pool size appends exactly `n - pool_size`
freshly generated trajectories and returns the whole pool, of length
exactly `n`; in both cases the old pool is a prefix of the new pool and
the returned training set is a prefix of the new pool. -/
theorem get_training_set_prefix_growth {α : Type} (gen : ℕ → α)
    (pool : List α) (n : ℕ) :
    (n ≤ pool.length →
      (get_training_set gen pool n).1 = pool.take n ∧
      (get_training_set gen pool n).2 = pool) ∧
    (pool.length < n →
      (get_training_set gen pool n).2
          = pool ++ (List.range (n - pool.length)).map
              (fun i => gen (pool.length + i)) ∧
      (get_training_set gen pool n).1 = (get_training_set gen pool n).2 ∧
      (get_training_set gen pool n).2.length = n) ∧
    pool <+: (get_training_set gen pool n).2 ∧
    (get_training_set gen pool n).1 <+: (get_training_set gen pool n).2 := by
  refine ⟨fun h => ?_, fun h => ?_, ?_, ?_⟩
  · simp [get_training_set, h]
  · have h' : ¬ n ≤ pool.length := by omega
    unfold get_training_set
    rw [if_neg h']
    refine ⟨rfl, rfl, ?_⟩
    simp
    omega
  · by_cases h : n ≤ pool.length
    · simp [get_training_set, h]
    · simp only [get_training_set, if_neg h]
      exact List.prefix_append _ _
  · by_cases h : n ≤ pool.length
    · simp [get_training_set, h, List.take_prefix]
    · simp [get_training_set, h]

/-- C6 (witness): growing a pool of 3 trajectories to 5. -/
theorem get_training_set_prefix_growth_witness :
    (3 : ℕ) < 5 ∧ (get_training_set (fun i => i) [0, 1, 2] 5).2.length = 5 :=
  ⟨by decide,
    ((get_training_set_prefix_growth (fun i => i) [0, 1, 2] 5).2.1
      (by decide)).2.2⟩

/-- C8 (counterexample): the loop written as the spec's words demand —
next batch generated from the LAST state of the previous batch — produces
a different batch at horizon 1 than the code, which uses `x[:, 0]`, the
first state. -/
theorem closedLoop_not_from_last_state :
    (closedLoopSpecLast fC8 () [5] 1).1 ≠ (closedLoop fC8 () [5] 1).1 := by
  decide

/-- C8 (amended): in every control horizon `j ≥ 1`, the new trajectory
batch is generated from the FIRST state (timestep 0, `x[:, 0]`) of the
previous batch under the control the model emitted for that batch, the
control's cost is accumulated, and the model is re-fit on the new batch. -/
theorem closedLoop_from_first_state {St Md : Type} [Inhabited St]
    (f : LoopFns St Md) (m0 : Md) (initConds : List St) (j : ℕ)
    (hj : 1 ≤ j) :
    (closedLoop f m0 initConds j).1
        = f.makeData (firstStates (closedLoop f m0 initConds (j - 1)).1)
            (some (f.act (closedLoop f m0 initConds (j - 1)).2.1
              (closedLoop f m0 initConds (j - 1)).1)) ∧
    (closedLoop f m0 initConds j).2.1
        = f.fit (closedLoop f m0 initConds (j - 1)).2.1
            (closedLoop f m0 initConds j).1 ∧
    (closedLoop f m0 initConds j).2.2
        = (closedLoop f m0 initConds (j - 1)).2.2
            + f.calcCost (f.act (closedLoop f m0 initConds (j - 1)).2.1
              (closedLoop f m0 initConds (j - 1)).1) := by
  obtain ⟨k, rfl⟩ : ∃ k, j = k + 1 := ⟨j - 1, by omega⟩
  rw [Nat.add_sub_cancel]
  exact ⟨rfl, rfl, rfl⟩

/-- C8 (witness): the horizon-1 batch of the concrete loop, through the
amended theorem. -/
theorem closedLoop_from_first_state_witness :
    (closedLoop fC8 () [5] 1).1
        = fC8.makeData (firstStates (closedLoop fC8 () [5] 0).1)
            (some (fC8.act (closedLoop fC8 () [5] 0).2.1
              (closedLoop fC8 () [5] 0).1)) :=
  (closedLoop_from_first_state fC8 () [5] 1 (by decide)).1

/-- C9 (counterexample): with two repetitions of a single valid
combination, the two rows — one from each repetition — carry the SAME id
value 1 (the scalar `data["id"]` left by the last repetition, broadcast
to all rows), so row ids are not distinct across repetitions. -/
theorem taskEvaluate_shared_id :
    rowIds (taskEvaluate cfgC9 fun _ _ => ((0 : ℚ), (0 : ℚ))) = [1, 1] ∧
    (taskEvaluate cfgC9 fun _ _ => ((0 : ℚ), (0 : ℚ))).rows.length = 2 ∧
    ¬ (rowIds (taskEvaluate cfgC9 fun _ _ => ((0 : ℚ), (0 : ℚ)))).Nodup := by
  decide

/-- C9 (amended): `Task.evaluate` produces exactly one row per evaluated
(non-skipped, `embed_dim ≥ latent_dim`) combination per repetition — a
combination appearing once among the valid combinations appears
`reps` times among the rows, a skipped one zero times — but the id
annotation is a single value, `reps - 1`, shared by all rows rather than
increasing across repetitions. -/
theorem taskEvaluate_rows_and_id (cfg : TaskConfig)
    (outcome : ℕ → (ℕ × ℕ × ℕ × ℕ × ℕ) → ℚ × ℚ)
    (hnodup : (validCombos cfg).Nodup) :
    (∀ p ∈ validCombos cfg,
      ((taskEvaluate cfg outcome).rows.map Prod.fst).countP
          (fun q => decide (q = p)) = cfg.reps) ∧
    (∀ p, p ∉ validCombos cfg →
      ((taskEvaluate cfg outcome).rows.map Prod.fst).countP
          (fun q => decide (q = p)) = 0) ∧
    (taskEvaluate cfg outcome).idCol
      = if cfg.reps = 0 then none else some (cfg.reps - 1) := by
  rw [taskEvaluate_eq]
  refine ⟨?_, ?_, rfl⟩
  · intro p hp
    rw [taskEvaluate_count, countP_eq_one_of_nodup_mem hnodup hp]
    ring
  · intro p hp
    rw [taskEvaluate_count, countP_eq_zero_of_not_mem hp]
    ring

/-- C9 (witness): the amended row counts and id at the concrete sweep. -/
theorem taskEvaluate_rows_and_id_witness :
    (∀ p ∈ validCombos cfgC9,
      ((taskEvaluate cfgC9 fun _ _ => ((0 : ℚ), (0 : ℚ))).rows.map
          Prod.fst).countP (fun q => decide (q = p)) = cfgC9.reps) ∧
    (∀ p, p ∉ validCombos cfgC9 →
      ((taskEvaluate cfgC9 fun _ _ => ((0 : ℚ), (0 : ℚ))).rows.map
          Prod.fst).countP (fun q => decide (q = p)) = 0) ∧
    (taskEvaluate cfgC9 fun _ _ => ((0 : ℚ), (0 : ℚ))).idCol
      = if cfgC9.reps = 0 then none else some (cfgC9.reps - 1) :=
  taskEvaluate_rows_and_id cfgC9 (fun _ _ => ((0 : ℚ), (0 : ℚ)))
    (by decide)

/-- C10: the prediction-scoring step completes without an assertion
failure only when the swept training `timesteps` equals
`test_timesteps`; whenever they differ, an assertion fails for every
possible raw prediction shape (either `Model.predict`'s own shape
assertion, or `calc_loss`'s equal-shape assertion). -/
theorem scoring_requires_equal_timesteps
    (embedDim timesteps testExamples testTimesteps : ℕ) (rawShape : Shape3) :
    ((scorePipeline embedDim timesteps testExamples testTimesteps
        rawShape).isSome → timesteps = testTimesteps) ∧
    (timesteps ≠ testTimesteps →
      scorePipeline embedDim timesteps testExamples testTimesteps rawShape
        = none) := by
  rw [scorePipeline_eq]
  constructor
  · intro h
    by_cases hc : rawShape = (⟨testExamples, timesteps, embedDim⟩ : Shape3)
        ∧ timesteps = testTimesteps
    · exact hc.2
    · rw [if_neg hc] at h
      simp at h
  · intro hne
    rw [if_neg]
    intro hc
    exact hne hc.2

/-- C10 (witness): matching timesteps pass the pipeline, mismatched ones
fail it. -/
theorem scoring_requires_equal_timesteps_witness :
    ((3 : ℕ) = 3) ∧
    scorePipeline 2 3 4 5 ⟨4, 3, 2⟩ = none :=
  ⟨(scoring_requires_equal_timesteps 2 3 4 3 ⟨4, 3, 2⟩).1 (by decide),
    (scoring_requires_equal_timesteps 2 3 4 5 ⟨4, 3, 2⟩).2 (by decide)⟩

/-- C1 (counterexample): an error behaviour strictly above the target 1
at every `n ≤ n_max` — unimodal with minimum 2 at `n = 4` — on which
`search` with the default parameters (`n_start = 1`, `n_precision = 5`,
`n_max = 10000`) returns the local-minimum sentinel `np.inf`, not `-1`. -/
theorem search_unreachable_claim_false :
    (∀ n : ℕ, n ≤ 10000 → (1 : ℚ) < errC1 n) ∧
    search errC1 1 1 5 10000 100 = .localMin ∧
    search errC1 1 1 5 10000 100 ≠ .neverReached := by
  refine ⟨?_, by decide, by decide⟩
  intro n _
  unfold errC1
  have h : (1 : ℤ) < (if n ≤ 4 then 6 - (n : ℤ) else (n : ℤ) - 2) := by
    split <;> omega
  exact_mod_cast h

/-- C1 (amended): if the windowed error stays strictly above target_error
for every `n ≤ n_max` AND is strictly decreasing in `n` there (no
local-minimum rise is visible), with `n_max ≥ 10` (a non-degenerate
increment cap `n_max // 10`) and fuel covering the at most `n_max + 2`
iterations, `search()` returns `-1` — the target is never reached within
`n_max` trajectories. -/
theorem search_unreachable_when_decreasing (err : ℕ → ℚ) (target : ℚ)
    (nStart nPrecision nMax fuel : ℕ)
    (hdec : ∀ n, n ≤ nMax → ∀ m, m < n → err n < err m)
    (habove : ∀ n, n ≤ nMax → target < err n)
    (hmax : 10 ≤ nMax)
    (hfuel : nMax + 2 ≤ fuel) :
    search err target nStart nPrecision nMax fuel = .neverReached := by
  have h := expoLoop_strictAnti err target nPrecision nMax hdec habove hmax
    fuel ⟨nStart, [], none, 1, ∅, none⟩
    (by intro x hx; simp at hx)
    (by intro t r hh; simp at hh)
    (by intro p hp; simp at hp)
    le_rfl (by dsimp only; omega) (by omega)
  unfold search expoOutcome
  rw [h]

/-- C1 (witness): a concrete strictly decreasing above-target curve on
which the amended theorem applies. -/
theorem search_unreachable_when_decreasing_witness :
    search errC1w 1 1 5 10 12 = .neverReached :=
  search_unreachable_when_decreasing errC1w 1 1 5 10 12 (by decide)
    (by decide) (by decide) (by decide)

/-- C2 (counterexample): an error behaviour that first decreases (down to
2 at `n = 3`) and then increases, never going below the target 1, on
which `search` with `n_start = 5` and `n_precision = 6` returns the
finite value 5 — not `+infinity` — through the "no more backing up can
be done" early return. -/
theorem search_localMin_claim_false :
    (∀ n : ℕ, (1 : ℚ) < errC2 n) ∧
    (∀ n, n < 3 → errC2 (n + 1) < errC2 n) ∧
    (∀ n, 3 ≤ n → errC2 n < errC2 (n + 1)) ∧
    search errC2 1 5 6 10000 100 = .found 5 := by
  refine ⟨?_, by decide, ?_, by decide⟩
  · intro n
    unfold errC2
    have h : (1 : ℤ) < (if n < 3 then 5 - (n : ℤ) else (n : ℤ) - 1) := by
      split <;> omega
    exact_mod_cast h
  · intro n hn
    unfold errC2
    have hh1 : ¬ (n < 3) := by omega
    have hh2 : ¬ (n + 1 < 3) := by omega
    rw [if_neg hh1, if_neg hh2]
    have h : ((n : ℤ) - 1) < (((n + 1 : ℕ) : ℤ) - 1) := by push_cast; omega
    exact_mod_cast h

/-- C2 (amended): for every error behaviour staying strictly above
target_error at every `n ≤ n_max` — in particular for the
decreasing-then-increasing ones — `search()` returns one of the two
sentinels `-1` or `+infinity` and never a finite `n`, provided the probed
counts stay positive (`n_start ≥ 1`), the precision does not trigger the
early "no more backing up" returns (`n_precision ≤ 1`), and the fuel
covers the cycle-guard bound. -/
theorem search_above_target_sentinels (err : ℕ → ℚ) (target : ℚ)
    (nStart nPrecision nMax fuel : ℕ)
    (habove : ∀ n, n ≤ nMax → target < err n)
    (hstart : 1 ≤ nStart) (hprec : nPrecision ≤ 1)
    (hfuel : (nMax + 1) * (max 1 (nMax / 10) + 1) + 1 ≤ fuel) :
    search err target nStart nPrecision nMax fuel = .neverReached ∨
    search err target nStart nPrecision nMax fuel = .localMin := by
  have hcard : (expoPairs nMax).card
      = (nMax + 1) * (max 1 (nMax / 10) + 1) := by
    simp [expoPairs]
  have hterm := expoLoop_fuel err target nPrecision nMax fuel
    ⟨nStart, [], none, 1, ∅, none⟩ (le_max_left _ _) (by simp)
    (by simp [hcard]; omega)
  have habv := expoLoop_above err target nPrecision nMax habove hprec fuel
    ⟨nStart, [], none, 1, ∅, none⟩ hstart (by intro x hx; simp at hx) rfl
  unfold search expoOutcome
  rcases habv with h | h | h
  · left
    rw [h]
  · right
    rw [h]
  · exact absurd h hterm

/-- C2 (witness): a constant above-target curve, small `n_max`. -/
theorem search_above_target_sentinels_witness :
    search (fun _ => (5 : ℚ)) 1 1 0 10 23 = .neverReached ∨
    search (fun _ => (5 : ℚ)) 1 1 0 10 23 = .localMin :=
  search_above_target_sentinels (fun _ => (5 : ℚ)) 1 1 0 10 23 (by decide)
    (by decide) (by decide) (by decide)

/-- C3 (counterexample): when a probed error equals target_error exactly,
the binary phase is entered with a bracket violating the claimed strict
invariant: here `error(2) = 2 = target`, the bracket is `(2, 4)`, and
with `n_precision = 0` the gap 2 exceeds `max(0, 1)`, so the loop does
narrow from a state where `error(n_lower) > target` fails. -/
theorem binary_entry_invariant_fails :
    expoOutcome errC3 2 1 0 100 50 = .toBinary 2 4 ∧
    ¬ ((2 : ℚ) < errC3 2) ∧
    ¬ ((4 : ℕ) - 2 ≤ max 0 1) :=
  ⟨by decide, by decide, by decide⟩

/-- C3 (amended): provided no probed (windowed) error ever equals
target_error exactly, every bracket the binary phase of `search()`
reaches — the entry bracket included — satisfies
`error(n_lower) > target_error > error(n_upper)`, and the loop
terminates exactly when `n_upper - n_lower ≤ max(n_precision, 1)`,
returning `ceil((n_lower + n_upper) / 2)` of the final bracket. -/
theorem binary_phase_invariant (err : ℕ → ℚ) (target : ℚ)
    (nStart nPrecision nMax fuel l u : ℕ)
    (hne : ∀ n, err n ≠ target)
    (hbin : expoOutcome err target nStart nPrecision nMax fuel
      = .toBinary l u) :
    (target < err l ∧ err u < target) ∧
    (∀ p q, BinReach err target nPrecision (l, u) (p, q) →
      target < err p ∧ err q < target) ∧
    (∃ p q, BinReach err target nPrecision (l, u) (p, q) ∧
      q - p ≤ max nPrecision 1 ∧
      binarySearch err target nPrecision l u = (p + q + 1) / 2) := by
  have hent := expoLoop_toBinary_mem err target nPrecision nMax fuel
    ⟨nStart, [], none, 1, ∅, none⟩ (by intro x hx; simp at hx) l u hbin
  have hl : target < err l := lt_of_le_of_ne hent.1 (Ne.symm (hne l))
  have hu : err u < target := hent.2
  exact ⟨⟨hl, hu⟩, binReach_invariant err target nPrecision hne l u hl hu,
    binarySearch_reaches err target nPrecision (u - l) l u le_rfl⟩

/-- C3 (witness): the amended invariant on a concrete run whose errors
(even integers) never equal the odd target 7; the search brackets
`(4, 8)` and the binary phase returns 7. -/
theorem binary_phase_invariant_witness :
    ((7 : ℚ) < errC3w 4 ∧ errC3w 8 < 7) ∧
    (∀ p q, BinReach errC3w 7 0 (4, 8) (p, q) →
      (7 : ℚ) < errC3w p ∧ errC3w q < 7) ∧
    (∃ p q, BinReach errC3w 7 0 (4, 8) (p, q) ∧
      q - p ≤ max 0 1 ∧ binarySearch errC3w 7 0 4 8 = (p + q + 1) / 2) :=
  binary_phase_invariant errC3w 7 1 0 100 50 4 8 errC3w_ne (by decide)

/-- C7: the search terminates for every error behaviour.  Every iteration
of the exponential phase either returns, breaks to the (well-founded)
binary phase, or records a fresh `(n_curr, increment)` pair — with
`n_curr ≤ n_max` and the increment bounded — in the cycle-guard history,
so with fuel beyond the number of possible pairs the embedded loop never
runs out: `search` never loops forever. -/
theorem search_terminates (err : ℕ → ℚ) (target : ℚ)
    (nStart nPrecision nMax fuel : ℕ)
    (hfuel : (nMax + 1) * (max 1 (nMax / 10) + 1) + 1 ≤ fuel) :
    search err target nStart nPrecision nMax fuel ≠ .outOfFuel := by
  have hcard : (expoPairs nMax).card
      = (nMax + 1) * (max 1 (nMax / 10) + 1) := by
    simp [expoPairs]
  have h := expoLoop_fuel err target nPrecision nMax fuel
    ⟨nStart, [], none, 1, ∅, none⟩ (le_max_left _ _) (by simp)
    (by simp [hcard]; omega)
  unfold search expoOutcome
  unfold expoOutcome at h
  cases hE : expoLoop err target nPrecision nMax fuel
      ⟨nStart, [], none, 1, ∅, none⟩ with
  | result r =>
    rw [hE] at h
    simpa using h
  | toBinary l u => simp

/-- C7 (witness): the termination bound at a concrete instance. -/
theorem search_terminates_witness :
    search (fun _ => (0 : ℚ)) 0 1 0 0 3 ≠ .outOfFuel :=
  search_terminates (fun _ => (0 : ℚ)) 0 1 0 0 3 (by decide)

end Dynadojo
